import Mathlib

/-!
Shallow embedding of the wave-function-collapse solver.

The repository snapshot contains `src/main.cpp` and the Makefile; the solver
core (`cell.cpp`, `grid.cpp`, `application.cpp`) is referenced by `main.cpp`
but its text is not present, so the core is modelled from the specification
(data model, component contracts and the algorithm of its section 4), while
`main.cpp` is translated directly.
-/

/-- Modelled from the spec: the four grid directions of 4-connectivity. -/
inductive Direction where
  | up
  | down
  | left
  | right
deriving DecidableEq

/-- Modelled from the spec: one tile record of the missing tile catalog —
a relative selection `weight` and, per direction, the set of TileIds allowed
adjacent in that direction.  TileIds are small integers (indices into the
catalog); weights are positive numbers, modelled as naturals. -/
structure Tile where
  weight : Nat
  compat : Direction → Finset Nat

/-- Modelled from the spec: the static tile catalog (missing `TileSet`),
an ordered sequence of tile records. -/
structure TileSet where
  tiles : List Tile

/-- Fallback tile used for out-of-range TileId lookups. -/
def defaultTile : Tile :=
  { weight := 1, compat := fun _ => ∅ }

/-- Tile record of a TileId (catalog lookup). -/
def TileSet.tile (ts : TileSet) (a : Nat) : Tile :=
  ts.tiles.getD a defaultTile

/-- Modelled from the spec: `compatible(a, direction, b)` — true iff `b` is
allowed in `direction` from `a`. -/
abbrev TileSet.compatible (ts : TileSet) (a : Nat) (d : Direction) (b : Nat) : Prop :=
  b ∈ (ts.tile a).compat d

/-- The full tile catalog as a set of TileIds. -/
def catalogSet (ts : TileSet) : Finset Nat :=
  Finset.range ts.tiles.length

/-- Modelled from the spec: the missing `Cell` — a domain of still-possible
TileIds and a collapsed flag. -/
structure Cell where
  domain : Finset Nat
  collapsed : Bool

/-- Modelled from the spec: `restrict(to)` on the missing `Cell` — intersects
the domain with the given set, returns whether the domain changed, and signals
`ContradictionError` (the `Except.error` case) if the result is empty. -/
def Cell.restrict (c : Cell) (s : Finset Nat) : Except Unit (Cell × Bool) :=
  let inter := c.domain ∩ s
  if inter = ∅ then Except.error ()
  else Except.ok ({ domain := inter, collapsed := c.collapsed }, decide (inter ≠ c.domain))

/-- Modelled from the spec: `collapse_to(tile)` on the missing `Cell` — sets
the domain to exactly that tile and marks the cell collapsed; fails (caller
error) if the tile is not already in the domain. -/
def Cell.collapse_to (c : Cell) (t : Nat) : Option Cell :=
  if t ∈ c.domain then some { domain := {t}, collapsed := true } else none

/-- Modelled from the spec: a fresh cell — full-catalog domain, uncollapsed. -/
def initialCell (ts : TileSet) : Cell :=
  { domain := catalogSet ts, collapsed := false }

/-- Modelled from the spec: the missing `Grid` — fixed rectangular dimensions
and a cell per (row, column) position. -/
structure Grid where
  width : Nat
  height : Nat
  cells : Nat × Nat → Cell

/-- A fresh grid of the given dimensions, every cell at full domain. -/
def mkGrid (ts : TileSet) (w h : Nat) : Grid :=
  { width := w, height := h, cells := fun _ => initialCell ts }

/-- Modelled from the spec: `grid.reset()` — restores every cell to the
full-domain, uncollapsed state, keeping the dimensions. -/
def Grid.reset (g : Grid) (ts : TileSet) : Grid :=
  { width := g.width, height := g.height, cells := fun _ => initialCell ts }

/-- Replace the cell at one position. -/
def Grid.setCell (g : Grid) (p : Nat × Nat) (c : Cell) : Grid :=
  { g with cells := Function.update g.cells p c }

/-- All in-range (row, column) positions of a w×h grid, row-major. -/
def positionsList (w h : Nat) : List (Nat × Nat) :=
  (List.range h).flatMap fun r => (List.range w).map fun c => (r, c)

/-- Position (row, column) lies inside a w×h grid. -/
def inRange (w h : Nat) (p : Nat × Nat) : Prop :=
  p.1 < h ∧ p.2 < w

instance (w h : Nat) (p : Nat × Nat) : Decidable (inRange w h p) :=
  inferInstanceAs (Decidable (_ ∧ _))

/-- Positions of a grid. -/
def Grid.positions (g : Grid) : List (Nat × Nat) :=
  positionsList g.width g.height

/-- Modelled from the spec: derived state `any_contradiction` of the missing
`Grid` — some cell domain is empty. -/
def Grid.any_contradiction (g : Grid) : Bool :=
  g.positions.any fun p => decide ((g.cells p).domain = ∅)

/-- Modelled from the spec: derived state `fully_collapsed` of the missing
`Grid` — every cell is collapsed. -/
def Grid.fully_collapsed (g : Grid) : Bool :=
  g.positions.all fun p => (g.cells p).collapsed

/-- Modelled from the spec: neighbor lookup of the missing `Grid` — the
in-range 4-connectivity neighbors of a position, computed arithmetically from
coordinates, bounded by the grid edges, no wraparound. -/
def neighborsOf (w h : Nat) (p : Nat × Nat) : List (Direction × (Nat × Nat)) :=
  (if 0 < p.1 then [(Direction.up, (p.1 - 1, p.2))] else []) ++
    (if p.1 + 1 < h then [(Direction.down, (p.1 + 1, p.2))] else []) ++
      (if 0 < p.2 then [(Direction.left, (p.1, p.2 - 1))] else []) ++
        (if p.2 + 1 < w then [(Direction.right, (p.1, p.2 + 1))] else [])

/-- Neighbor lookup on a grid. -/
def Grid.neighbors_of (g : Grid) (p : Nat × Nat) : List (Direction × (Nat × Nat)) :=
  neighborsOf g.width g.height p

/-- Modelled from the spec: the set of TileIds of `domQ` compatible with at
least one TileId of `domP` in direction `d` (the restriction set computed in
propagation step 5). -/
def allowedSet (ts : TileSet) (domP : Finset Nat) (d : Direction) (domQ : Finset Nat) : Finset Nat :=
  domQ ∩ domP.biUnion fun a => (ts.tile a).compat d

/-- Sum of the cardinalities of all in-range cell domains (termination
measure for propagation). -/
def totalDomain (g : Grid) : Nat :=
  (g.positions.map fun p => (g.cells p).domain.card).sum

/-- Result of draining the propagation queue. -/
inductive PropResult where
  | ok (g : Grid)
  | contradictionFound
  | outOfFuel

/-- Modelled from the spec: the per-pop body of propagation step 5 — for each
neighbor `(d, q)` of the popped cell, compute the allowed set from the popped
cell's domain; if it is a strict subset of `q`'s domain, `restrict` `q` to it
(aborting on contradiction) and record `q` as pushed. -/
def processNeighbors (ts : TileSet) (domP : Finset Nat) :
    List (Direction × (Nat × Nat)) → Grid → Except Unit (Grid × List (Nat × Nat))
  | [], g => Except.ok (g, [])
  | (d, q) :: rest, g =>
    let cq := g.cells q
    let s := allowedSet ts domP d cq.domain
    if s = cq.domain then processNeighbors ts domP rest g
    else
      match cq.restrict s with
      | Except.error e => Except.error e
      | Except.ok (c, _) =>
        match processNeighbors ts domP rest (g.setCell q c) with
        | Except.error e => Except.error e
        | Except.ok (g2, pushed) => Except.ok (g2, q :: pushed)

/-- Modelled from the spec: the breadth-first queue-draining loop of
propagation step 5, with an explicit fuel bounding the number of pops;
`outOfFuel` marks fuel exhaustion (proved unreachable for sufficient fuel). -/
def propagateFuel (ts : TileSet) : Nat → Grid → List (Nat × Nat) → PropResult
  | 0, _, _ => PropResult.outOfFuel
  | _ + 1, g, [] => PropResult.ok g
  | n + 1, g, p :: rest =>
    match processNeighbors ts ((g.cells p).domain) (g.neighbors_of p) g with
    | Except.error _ => PropResult.contradictionFound
    | Except.ok (g2, pushed) => propagateFuel ts n g2 (rest ++ pushed)

/-- Propagation with the sufficient fuel `totalDomain g + q.length + 1`. -/
def propagate (ts : TileSet) (g : Grid) (q : List (Nat × Nat)) : PropResult :=
  propagateFuel ts (totalDomain g + q.length + 1) g q

/-- Modelled from the spec: the deterministic seeded random source (design
notes §9), one step of a linear congruential generator. -/
def rngNext (s : Nat) : Nat :=
  (6364136223846793005 * s + 1442695040888963407) % (2 ^ 64)

/-- Random stream state used for attempt number `k` under a seed (the retry
policy reseeds/advances the source per attempt). -/
def attemptRng (seed k : Nat) : Nat :=
  rngNext (seed + k)

/-- Sum of the weights of a list of TileIds. -/
def weightSum (ts : TileSet) (l : List Nat) : Nat :=
  (l.map fun t => (ts.tile t).weight).sum

/-- Modelled from the spec: weighted random sampling over the TileIds of a
domain — walk the cumulative weights with a random threshold `r`, with
probability proportional to each candidate's weight. -/
def pickWeighted (ts : TileSet) : List Nat → Nat → Nat
  | [], _ => 0
  | [t], _ => t
  | t :: t2 :: rest, r =>
    if r < (ts.tile t).weight then t
    else pickWeighted ts (t2 :: rest) (r - (ts.tile t).weight)

/-- The domain of a cell as an ordered list of TileIds (catalog order). -/
def domainList (ts : TileSet) (c : Cell) : List Nat :=
  (List.range ts.tiles.length).filter fun t => decide (t ∈ c.domain)

/-- Result of one solve attempt. -/
inductive AttemptResult where
  | solved (g : Grid)
  | contradicted
  | outOfFuel

/-- Modelled from the spec: select the minimum-key candidate among `u :: us`,
ties broken by the random value `r` (uniform index into the tied
candidates). -/
def selectMin {κ : Type} [LinearOrder κ] (key : Nat × Nat → κ) (r : Nat)
    (u : Nat × Nat) (us : List (Nat × Nat)) : Nat × Nat :=
  let m := (us.map key).foldl min (key u)
  let ties := (u :: us).filter fun p => decide (key p = m)
  ties.getD (r % ties.length) (0, 0)

/-- Modelled from the spec: choose a TileId from a cell's domain by weighted
random sampling, normalized over the domain. -/
def chooseTile (ts : TileSet) (c : Cell) (r : Nat) : Nat :=
  let ds := domainList ts c
  pickWeighted ts ds (r % weightSum ts ds)

/-- Outcome of one iteration of the attempt loop: a final result, or the
next grid and random state. -/
inductive StepOut where
  | done (r : AttemptResult)
  | next (g : Grid) (rng : Nat)

/-- Modelled from the spec: steps 3–5 of the attempt main loop (§4.4) —
select the uncollapsed cell of minimum entropy among the candidates
`u :: us` (ties broken by the random stream), collapse it to a weighted
random choice from its domain, and propagate from it. -/
def collapseAndPropagate {κ : Type} [LinearOrder κ] (ts : TileSet) (ek : Finset Nat → κ)
    (g : Grid) (rng : Nat) (u : Nat × Nat) (us : List (Nat × Nat)) : StepOut :=
  let r1 := rngNext rng
  let sel := selectMin (fun p => ek ((g.cells p).domain)) r1 u us
  let r2 := rngNext r1
  let t := chooseTile ts (g.cells sel) r2
  match (g.cells sel).collapse_to t with
  | none => StepOut.done AttemptResult.contradicted
  | some c =>
    match propagate ts (g.setCell sel c) [sel] with
    | PropResult.ok g2 => StepOut.next g2 r2
    | PropResult.contradictionFound => StepOut.done AttemptResult.contradicted
    | PropResult.outOfFuel => StepOut.done AttemptResult.outOfFuel

/-- Modelled from the spec: one iteration of the attempt main loop (§4.4) —
abort on contradiction, finish when fully collapsed, otherwise select the
uncollapsed cell of minimum entropy (ties broken by the random stream),
collapse it to a weighted random choice from its domain and propagate from
it.  The entropy heuristic of the missing solver is an injected deterministic
function `ek` into a linear order. -/
def attemptStep {κ : Type} [LinearOrder κ] (ts : TileSet) (ek : Finset Nat → κ)
    (g : Grid) (rng : Nat) : StepOut :=
  if g.any_contradiction then StepOut.done AttemptResult.contradicted
  else if g.fully_collapsed then StepOut.done (AttemptResult.solved g)
  else
    match g.positions.filter (fun p => !(g.cells p).collapsed) with
    | [] => StepOut.done AttemptResult.contradicted
    | u :: us => collapseAndPropagate ts ek g rng u us

/-- Modelled from the spec: the main loop of one attempt (§4.4), iterating
`attemptStep`; fuel bounds the number of collapse iterations. -/
def attemptLoop {κ : Type} [LinearOrder κ] (ts : TileSet) (ek : Finset Nat → κ) :
    Nat → Grid → Nat → AttemptResult
  | 0, _, _ => AttemptResult.outOfFuel
  | n + 1, g, rng =>
    match attemptStep ts ek g rng with
    | StepOut.done r => r
    | StepOut.next g2 r2 => attemptLoop ts ek n g2 r2

/-- Modelled from the spec: the retry loop of `run` — attempts indexed from
`k`, each on a reset grid with an advanced random stream; when the budget is
exhausted the result is `UnsatisfiableError` (the `Except.error` case). -/
def runAux {κ : Type} [LinearOrder κ] (ts : TileSet) (ek : Finset Nat → κ) (seed : Nat) :
    Grid → Nat → Nat → Except Unit Grid
  | _, _, 0 => Except.error ()
  | g, k, n + 1 =>
    match attemptLoop ts ek (g.width * g.height + 1) g (attemptRng seed k) with
    | AttemptResult.solved gs => Except.ok gs
    | _ => runAux ts ek seed (g.reset ts) (k + 1) n

/-- Modelled from the spec: `run()` — up to `attempts` solve attempts on a
fresh w×h grid over the TileSet, returning the solved grid or
`UnsatisfiableError`. -/
def run {κ : Type} [LinearOrder κ] (ts : TileSet) (ek : Finset Nat → κ)
    (w h seed attempts : Nat) : Except Unit Grid :=
  runAux ts ek seed (mkGrid ts w h) 0 attempts

/-- The result of attempt number `k` of a `run` with the given parameters:
the attempt runs on a fresh (reset) grid with the attempt's random state. -/
def attemptAt {κ : Type} [LinearOrder κ] (ts : TileSet) (ek : Finset Nat → κ)
    (w h seed k : Nat) : AttemptResult :=
  attemptLoop ts ek (w * h + 1) (mkGrid ts w h) (attemptRng seed k)

/-- Modelled from the spec: the `Application` that `main.cpp` default-constructs
(`application.cpp` is missing) — its solver configuration is fixed at
construction, with no external inputs. -/
structure Application (κ : Type) where
  tileset : TileSet
  ek : Finset Nat → κ
  width : Nat
  height : Nat
  seed : Nat
  attempts : Nat

/-- Modelled from the spec: `Application::run` invokes the solver on the
configuration baked into the Application. -/
def applicationRun {κ : Type} [LinearOrder κ] (app : Application κ) : Except Unit Grid :=
  run app.tileset app.ek app.width app.height app.seed app.attempts

/-- Translation of `main` from `src/main.cpp`: default-construct an
Application, call `application.run()` discarding its outcome, and return 0.
The command-line arguments `argc`/`argv` are received and never read. -/
def cppMain {κ : Type} [LinearOrder κ] (app : Application κ)
    (argc : Nat) (argv : List String) : Int :=
  match applicationRun app with
  | Except.ok _ => 0
  | Except.error _ => 0

/-- Arc consistency of the directed edge from `p` to `q`: every tile still in
`q`'s domain is compatible with some tile still in `p`'s domain. -/
def EdgeOK (ts : TileSet) (g : Grid) (p : Nat × Nat) (d : Direction) (q : Nat × Nat) : Prop :=
  ∀ b ∈ (g.cells q).domain, ∃ a ∈ (g.cells p).domain, ts.compatible a d b

/-- Propagation invariant: every edge out of a collapsed cell is arc
consistent unless its source is still queued for propagation. -/
def KInv (ts : TileSet) (w h : Nat) (g : Grid) (queue : List (Nat × Nat)) : Prop :=
  ∀ p d q, (d, q) ∈ neighborsOf w h p → (g.cells p).collapsed = true →
    p ∈ queue ∨ EdgeOK ts g p d q

/-- Collapsed cells hold exactly one tile. -/
def SingletonInv (g : Grid) : Prop :=
  ∀ p, (g.cells p).collapsed = true → ∃ t, (g.cells p).domain = {t}

/-- Number of uncollapsed cells (termination measure for the attempt loop). -/
def uncollapsedCount (g : Grid) : Nat :=
  g.positions.countP fun p => !(g.cells p).collapsed

/-- Modelled from the spec: the domain-changing operations a solve performs on
the grid — a deliberate `collapse_to` of a chosen tile, or a `restrict` during
propagation.  Two grids are related when one such operation leads from the
first to the second. -/
inductive SolverOp : Grid → Grid → Prop where
  | collapse (g : Grid) (p : Nat × Nat) (t : Nat) (c : Cell) :
      (g.cells p).collapse_to t = some c → SolverOp g (g.setCell p c)
  | restriction (g : Grid) (p : Nat × Nat) (s : Finset Nat) (c : Cell) (chg : Bool) :
      (g.cells p).restrict s = Except.ok (c, chg) → SolverOp g (g.setCell p c)

/-! Witness fixtures. -/

/-- Entropy heuristic used by the concrete witnesses: domain cardinality. -/
def ekCard : Finset Nat → Nat := fun d => d.card

/-- A tile compatible with itself in every direction. -/
def tileSelf : Tile :=
  { weight := 1, compat := fun _ => {0} }

/-- One-tile catalog whose tile is self-compatible. -/
def tsSingle : TileSet :=
  { tiles := [tileSelf] }

/-- A tile compatible with nothing. -/
def tileIso : Tile :=
  { weight := 1, compat := fun _ => ∅ }

/-- Two-tile catalog with no compatible pair at all. -/
def tsIncompat : TileSet :=
  { tiles := [tileIso, tileIso] }

/-- The solved grid of a concrete 1×1 run over `tsSingle`. -/
def solvedGrid1 : Grid :=
  match run tsSingle ekCard 1 1 0 1 with
  | Except.ok g => g
  | Except.error _ => mkGrid tsSingle 1 1

/-- A concrete cell used by the restrict witness. -/
def cellA : Cell :=
  { domain := {1, 3}, collapsed := false }

/-- The cell `cellA.restrict {2, 3}` produces. -/
def cellRes : Cell :=
  { domain := cellA.domain ∩ {2, 3}, collapsed := false }

/-- The cell a restrict step on the fresh 1×1 grid over `tsSingle` produces. -/
def cellKeep : Cell :=
  { domain := catalogSet tsSingle ∩ {0}, collapsed := false }

/-! Basic facts about the cell operations. -/

theorem restrict_error_iff (c : Cell) (s : Finset Nat) :
    c.restrict s = Except.error () ↔ c.domain ∩ s = ∅ := by
  by_cases hc : c.domain ∩ s = ∅ <;> simp [Cell.restrict, hc]

theorem restrict_ok_facts (c : Cell) (s : Finset Nat) (c2 : Cell) (chg : Bool)
    (h : c.restrict s = Except.ok (c2, chg)) :
    c2.domain = c.domain ∩ s ∧ c2.collapsed = c.collapsed ∧ c.domain ∩ s ≠ ∅ ∧
      (chg = true ↔ c2.domain ≠ c.domain) := by
  by_cases hc : c.domain ∩ s = ∅
  · simp [Cell.restrict, hc] at h
  · simp only [Cell.restrict, hc, if_neg, ite_false, Except.ok.injEq, Prod.mk.injEq] at h
    obtain ⟨h1, h2⟩ := h
    subst h1
    refine ⟨rfl, rfl, hc, ?_⟩
    show chg = true ↔ ¬(c.domain ∩ s = c.domain)
    rw [Finset.inter_eq_left]
    cases chg
    · simp only [decide_eq_false_iff_not, ne_eq, not_not, Finset.inter_eq_left] at h2
      simp [h2]
    · simp only [decide_eq_true_eq, ne_eq, Finset.inter_eq_left] at h2
      simp [h2]

theorem collapse_to_some (c : Cell) (t : Nat) (c2 : Cell)
    (h : c.collapse_to t = some c2) :
    t ∈ c.domain ∧ c2.domain = {t} ∧ c2.collapsed = true := by
  by_cases ht : t ∈ c.domain
  · simp only [Cell.collapse_to, ht, if_pos, Option.some.injEq] at h
    subst h
    exact ⟨ht, rfl, rfl⟩
  · simp [Cell.collapse_to, ht] at h

/-! Positions and neighbors. -/

theorem mem_positionsList {w h : Nat} {p : Nat × Nat} :
    p ∈ positionsList w h ↔ inRange w h p := by
  obtain ⟨r, c⟩ := p
  simp [positionsList, List.mem_flatMap, List.mem_map, List.mem_range, inRange]

theorem nodup_positionsList (w h : Nat) : (positionsList w h).Nodup := by
  unfold positionsList
  rw [List.nodup_flatMap]
  constructor
  · intro r _
    refine (List.nodup_range w).map ?_
    intro c1 c2 hcc
    injection hcc with h1 h2
  · refine (List.pairwise_lt_range h).imp ?_
    intro r1 r2 hlt x hx1 hx2
    simp only [List.mem_map, List.mem_range] at hx1 hx2
    obtain ⟨c1, _, hc1⟩ := hx1
    obtain ⟨c2, _, hc2⟩ := hx2
    rw [← hc1] at hc2
    injection hc2 with h1 _
    omega

theorem mem_cases_of_ite {α : Type} {x y : α} {c : Prop} [Decidable c]
    (hm : x ∈ (if c then [y] else [])) : c ∧ x = y := by
  by_cases hc : c
  · rw [if_pos hc] at hm
    exact ⟨hc, List.mem_singleton.mp hm⟩
  · rw [if_neg hc] at hm
    cases hm

theorem neighborsOf_cases {w h : Nat} {p : Nat × Nat} {d : Direction} {q : Nat × Nat}
    (hmem : (d, q) ∈ neighborsOf w h p) :
    (0 < p.1 ∧ q = (p.1 - 1, p.2)) ∨ (p.1 + 1 < h ∧ q = (p.1 + 1, p.2)) ∨
      (0 < p.2 ∧ q = (p.1, p.2 - 1)) ∨ (p.2 + 1 < w ∧ q = (p.1, p.2 + 1)) := by
  unfold neighborsOf at hmem
  rcases List.mem_append.mp hmem with hm123 | hm
  · rcases List.mem_append.mp hm123 with hm12 | hm
    · rcases List.mem_append.mp hm12 with hm | hm
      · obtain ⟨hc, he⟩ := mem_cases_of_ite hm
        injection he with _ hq
        exact Or.inl ⟨hc, hq⟩
      · obtain ⟨hc, he⟩ := mem_cases_of_ite hm
        injection he with _ hq
        exact Or.inr (Or.inl ⟨hc, hq⟩)
    · obtain ⟨hc, he⟩ := mem_cases_of_ite hm
      injection he with _ hq
      exact Or.inr (Or.inr (Or.inl ⟨hc, hq⟩))
  · obtain ⟨hc, he⟩ := mem_cases_of_ite hm
    injection he with _ hq
    exact Or.inr (Or.inr (Or.inr ⟨hc, hq⟩))

theorem neighborsOf_ne {w h : Nat} {p : Nat × Nat} {d : Direction} {q : Nat × Nat}
    (hmem : (d, q) ∈ neighborsOf w h p) : q ≠ p := by
  obtain ⟨r, c⟩ := p
  rcases neighborsOf_cases hmem with ⟨h1, h2⟩ | ⟨h1, h2⟩ | ⟨h1, h2⟩ | ⟨h1, h2⟩ <;>
    (subst h2; intro hcontra; injection hcontra with ha hb; omega)

theorem neighborsOf_inRange {w h : Nat} {p : Nat × Nat} {d : Direction} {q : Nat × Nat}
    (hp : inRange w h p) (hmem : (d, q) ∈ neighborsOf w h p) : inRange w h q := by
  obtain ⟨hr, hc⟩ := hp
  rcases neighborsOf_cases hmem with ⟨h1, h2⟩ | ⟨h1, h2⟩ | ⟨h1, h2⟩ | ⟨h1, h2⟩ <;>
    (subst h2; constructor <;> simp <;> omega)

/-! Sums over position lists with one cell updated. -/

theorem sum_update_lt {α : Type} [DecidableEq α] :
    ∀ (l : List α), l.Nodup → ∀ (f : α → Nat) (q : α), q ∈ l → ∀ v : Nat, v < f q →
      (l.map (Function.update f q v)).sum < (l.map f).sum := by
  intro l
  induction l with
  | nil => intro _ _ _ hq; cases hq
  | cons a tl ih =>
    intro hnd f q hq v hv
    rw [List.nodup_cons] at hnd
    obtain ⟨ha, hndtl⟩ := hnd
    rcases List.mem_cons.mp hq with heq | htl
    · subst heq
      have htl_eq : tl.map (Function.update f q v) = tl.map f := by
        apply List.map_congr_left
        intro x hx
        have hxq : x ≠ q := fun hcontra => ha (hcontra ▸ hx)
        exact Function.update_noteq hxq v f
      simp only [List.map_cons, List.sum_cons, htl_eq, Function.update_same]
      omega
    · have haq : a ≠ q := fun hcontra => ha (hcontra ▸ htl)
      have hstep := ih hndtl f q htl v hv
      simp only [List.map_cons, List.sum_cons, Function.update_noteq haq]
      omega

theorem totalDomain_setCell_lt (g : Grid) (q : Nat × Nat) (c : Cell)
    (hq : inRange g.width g.height q)
    (hc : c.domain.card < ((g.cells q).domain.card)) :
    totalDomain (g.setCell q c) < totalDomain g := by
  unfold totalDomain Grid.setCell Grid.positions
  simp only
  have hmap : ∀ p : Nat × Nat,
      ((Function.update g.cells q c p).domain.card) =
        Function.update (fun x => (g.cells x).domain.card) q c.domain.card p := by
    intro p
    by_cases hpq : p = q
    · subst hpq; simp
    · rw [Function.update_noteq hpq, Function.update_noteq hpq]
  rw [List.map_congr_left fun p _ => hmap p]
  exact sum_update_lt _ (nodup_positionsList _ _) _ q (mem_positionsList.mpr hq) _ hc

/-! Solve invariants. -/

theorem setCell_cells_same (g : Grid) (p : Nat × Nat) (c : Cell) :
    (g.setCell p c).cells p = c := by
  show Function.update g.cells p c p = c
  exact Function.update_same p c g.cells

theorem setCell_cells_ne (g : Grid) (p : Nat × Nat) (c : Cell) (x : Nat × Nat)
    (hx : x ≠ p) : (g.setCell p c).cells x = g.cells x := by
  show Function.update g.cells p c x = g.cells x
  exact Function.update_noteq hx c g.cells

theorem mem_allowedSet {ts : TileSet} {domP : Finset Nat} {d : Direction}
    {domQ : Finset Nat} {b : Nat} :
    b ∈ allowedSet ts domP d domQ ↔ b ∈ domQ ∧ ∃ a ∈ domP, ts.compatible a d b := by
  simp [allowedSet, Finset.mem_inter, Finset.mem_biUnion, TileSet.compatible]

theorem allowedSet_subset (ts : TileSet) (domP : Finset Nat) (d : Direction)
    (domQ : Finset Nat) : allowedSet ts domP d domQ ⊆ domQ :=
  Finset.inter_subset_left

/-! Soundness facts of one pass over a popped cell's neighbors. -/

theorem processNeighbors_facts (ts : TileSet) (domP : Finset Nat) :
    ∀ (ns : List (Direction × (Nat × Nat))) (g g2 : Grid) (pushed : List (Nat × Nat)),
      processNeighbors ts domP ns g = Except.ok (g2, pushed) →
      g2.width = g.width ∧ g2.height = g.height ∧
      (∀ x, (g2.cells x).domain ⊆ (g.cells x).domain ∧
        (g2.cells x).collapsed = (g.cells x).collapsed ∧
        ((g.cells x).domain ≠ ∅ → (g2.cells x).domain ≠ ∅)) ∧
      (∀ x, x ∈ pushed ∨ g2.cells x = g.cells x) ∧
      (∀ dq ∈ ns, ∀ b ∈ (g2.cells dq.2).domain, ∃ a ∈ domP, ts.compatible a dq.1 b) ∧
      (∀ x ∈ pushed, ∃ dd, (dd, x) ∈ ns) := by
  intro ns
  induction ns with
  | nil =>
    intro g g2 pushed h
    simp only [processNeighbors] at h
    injection h with h1
    injection h1 with hg hp
    subst hg
    subst hp
    refine ⟨rfl, rfl, fun x => ⟨Finset.Subset.refl _, rfl, fun hne => hne⟩,
      fun x => Or.inr rfl, ?_, ?_⟩
    · intro dq hmem
      cases hmem
    · intro x hx
      cases hx
  | cons dqv rest ih =>
    obtain ⟨d, q⟩ := dqv
    intro g g2 pushed h
    simp only [processNeighbors] at h
    by_cases hs : allowedSet ts domP d ((g.cells q).domain) = (g.cells q).domain
    · rw [if_pos hs] at h
      obtain ⟨hw, hh, hmono, hunch, hedge, hpush⟩ := ih g g2 pushed h
      refine ⟨hw, hh, hmono, hunch, ?_, ?_⟩
      · intro dq hmem
        rcases List.mem_cons.mp hmem with hhead | htail
        · subst hhead
          intro b hb
          have hbq : b ∈ (g.cells q).domain := (hmono q).1 hb
          rw [← hs] at hbq
          exact (mem_allowedSet.mp hbq).2
        · exact hedge dq htail
      · intro x hx
        obtain ⟨dd, hdd⟩ := hpush x hx
        exact ⟨dd, List.mem_cons_of_mem _ hdd⟩
    · rw [if_neg hs] at h
      cases hre : (g.cells q).restrict (allowedSet ts domP d ((g.cells q).domain)) with
      | error e =>
        rw [hre] at h
        cases h
      | ok cb =>
        obtain ⟨c, bchg⟩ := cb
        rw [hre] at h
        dsimp only at h
        cases hrec : processNeighbors ts domP rest (g.setCell q c) with
        | error e =>
          rw [hrec] at h
          cases h
        | ok gp =>
          obtain ⟨g2x, pushedx⟩ := gp
          rw [hrec] at h
          injection h with h1
          injection h1 with hg hp
          subst hg
          subst hp
          obtain ⟨hcdom, hccol, hcne, _⟩ := restrict_ok_facts _ _ _ _ hre
          obtain ⟨hw, hh, hmono, hunch, hedge, hpush⟩ := ih (g.setCell q c) g2x pushedx hrec
          have hq_cell : (g.setCell q c).cells q = c := setCell_cells_same g q c
          have hcdom_sub : c.domain ⊆ (g.cells q).domain := by
            rw [hcdom]
            exact Finset.inter_subset_left
          refine ⟨hw, hh, ?_, ?_, ?_, ?_⟩
          · intro x
            by_cases hxq : x = q
            · subst hxq
              obtain ⟨hm1, hm2, hm3⟩ := hmono x
              rw [hq_cell] at hm1 hm2 hm3
              refine ⟨hm1.trans hcdom_sub, hm2.trans hccol, fun _ => hm3 ?_⟩
              rw [hcdom]
              exact hcne
            · obtain ⟨hm1, hm2, hm3⟩ := hmono x
              rw [setCell_cells_ne g q c x hxq] at hm1 hm2 hm3
              exact ⟨hm1, hm2, hm3⟩
          · intro x
            by_cases hxq : x = q
            · subst hxq
              exact Or.inl (List.mem_cons_self _ _)
            · rcases hunch x with hxp | hxe
              · exact Or.inl (List.mem_cons_of_mem _ hxp)
              · rw [setCell_cells_ne g q c x hxq] at hxe
                exact Or.inr hxe
          · intro dq hmem
            rcases List.mem_cons.mp hmem with hhead | htail
            · subst hhead
              intro b hb
              have hbq : b ∈ c.domain := by
                have hsub := (hmono q).1
                rw [hq_cell] at hsub
                exact hsub hb
              rw [hcdom] at hbq
              have hball : b ∈ allowedSet ts domP d ((g.cells q).domain) :=
                Finset.mem_of_mem_inter_right hbq
              exact (mem_allowedSet.mp hball).2
            · exact hedge dq htail
          · intro x hx
            rcases List.mem_cons.mp hx with hxq | hxp
            · subst hxq
              exact ⟨d, List.mem_cons_self _ _⟩
            · obtain ⟨dd, hdd⟩ := hpush x hxp
              exact ⟨dd, List.mem_cons_of_mem _ hdd⟩

theorem processNeighbors_measure (ts : TileSet) (domP : Finset Nat) :
    ∀ (ns : List (Direction × (Nat × Nat))) (g g2 : Grid) (pushed : List (Nat × Nat)),
      processNeighbors ts domP ns g = Except.ok (g2, pushed) →
      (∀ dq ∈ ns, inRange g.width g.height dq.2) →
      totalDomain g2 + pushed.length ≤ totalDomain g := by
  intro ns
  induction ns with
  | nil =>
    intro g g2 pushed h _
    simp only [processNeighbors] at h
    injection h with h1
    injection h1 with hg hp
    subst hg
    subst hp
    simp
  | cons dqv rest ih =>
    obtain ⟨d, q⟩ := dqv
    intro g g2 pushed h hns
    simp only [processNeighbors] at h
    by_cases hs : allowedSet ts domP d ((g.cells q).domain) = (g.cells q).domain
    · rw [if_pos hs] at h
      exact ih g g2 pushed h fun dq hdq => hns dq (List.mem_cons_of_mem _ hdq)
    · rw [if_neg hs] at h
      cases hre : (g.cells q).restrict (allowedSet ts domP d ((g.cells q).domain)) with
      | error e =>
        rw [hre] at h
        cases h
      | ok cb =>
        obtain ⟨c, bchg⟩ := cb
        rw [hre] at h
        dsimp only at h
        cases hrec : processNeighbors ts domP rest (g.setCell q c) with
        | error e =>
          rw [hrec] at h
          cases h
        | ok gp =>
          obtain ⟨g2x, pushedx⟩ := gp
          rw [hrec] at h
          injection h with h1
          injection h1 with hg hp
          subst hg
          subst hp
          obtain ⟨hcdom, _, _, _⟩ := restrict_ok_facts _ _ _ _ hre
          have hq_in : inRange g.width g.height q := hns (d, q) (List.mem_cons_self _ _)
          have hcard : c.domain.card < ((g.cells q).domain.card) := by
            apply Finset.card_lt_card
            rw [hcdom, Finset.inter_eq_right.mpr (allowedSet_subset ts domP d _)]
            exact Finset.ssubset_iff_subset_ne.mpr ⟨allowedSet_subset ts domP d _, hs⟩
          have hlt : totalDomain (g.setCell q c) < totalDomain g :=
            totalDomain_setCell_lt g q c hq_in hcard
          have hrecle : totalDomain g2x + pushedx.length ≤ totalDomain (g.setCell q c) :=
            ih (g.setCell q c) g2x pushedx hrec
              fun dq hdq => hns dq (List.mem_cons_of_mem _ hdq)
          simp only [List.length_cons]
          omega

theorem neighbors_of_def (g : Grid) (p : Nat × Nat) :
    g.neighbors_of p = neighborsOf g.width g.height p := rfl

theorem propagateFuel_ok_facts (ts : TileSet) :
    ∀ (n : Nat) (g : Grid) (queue : List (Nat × Nat)) (g2 : Grid),
      propagateFuel ts n g queue = PropResult.ok g2 →
      g2.width = g.width ∧ g2.height = g.height ∧
      (∀ x, (g2.cells x).domain ⊆ (g.cells x).domain ∧
        (g2.cells x).collapsed = (g.cells x).collapsed) ∧
      (SingletonInv g → SingletonInv g2) ∧
      (KInv ts g.width g.height g queue → KInv ts g.width g.height g2 []) := by
  intro n
  induction n with
  | zero =>
    intro g queue g2 h
    simp only [propagateFuel] at h
    exact PropResult.noConfusion h
  | succ n ih =>
    intro g queue g2 h
    cases queue with
    | nil =>
      simp only [propagateFuel] at h
      injection h with hg
      subst hg
      exact ⟨rfl, rfl, fun x => ⟨Finset.Subset.refl _, rfl⟩, fun hs => hs, fun hk => hk⟩
    | cons p rest =>
      simp only [propagateFuel] at h
      cases hpn : processNeighbors ts ((g.cells p).domain) (g.neighbors_of p) g with
      | error e =>
        rw [hpn] at h
        dsimp only at h
        exact PropResult.noConfusion h
      | ok gp =>
        obtain ⟨g1, pushed⟩ := gp
        rw [hpn] at h
        dsimp only at h
        obtain ⟨hw1, hh1, hmono1, hunch1, hedge1, hpush1⟩ :=
          processNeighbors_facts ts _ _ g g1 pushed hpn
        obtain ⟨hw2, hh2, hmono2, hsing2, hk2⟩ := ih g1 (rest ++ pushed) g2 h
        rw [hw1, hh1] at hk2
        have hsing1 : SingletonInv g → SingletonInv g1 := by
          intro hs x hcol
          have hcolg : (g.cells x).collapsed = true := by
            rw [← (hmono1 x).2.1]
            exact hcol
          obtain ⟨t, ht⟩ := hs x hcolg
          have hsub : (g1.cells x).domain ⊆ {t} := ht ▸ (hmono1 x).1
          have hne : (g1.cells x).domain ≠ ∅ := by
            refine (hmono1 x).2.2 ?_
            rw [ht]
            exact Finset.singleton_ne_empty t
          rcases Finset.subset_singleton_iff.mp hsub with h0 | h1
          · exact absurd h0 hne
          · exact ⟨t, h1⟩
        have hstep : KInv ts g.width g.height g (p :: rest) →
            KInv ts g.width g.height g1 (rest ++ pushed) := by
          intro hK x d y hxy hcolx1
          have hcolx : (g.cells x).collapsed = true := by
            rw [← (hmono1 x).2.1]
            exact hcolx1
          by_cases hxp : x = p
          · subst hxp
            right
            intro b hb
            obtain ⟨a, ha, hcab⟩ := hedge1 (d, y) (by rw [neighbors_of_def]; exact hxy) b hb
            have hxunch : g1.cells x = g.cells x := by
              rcases hunch1 x with hxpu | he
              · obtain ⟨dd, hdd⟩ := hpush1 x hxpu
                rw [neighbors_of_def] at hdd
                exact absurd rfl (neighborsOf_ne hdd)
              · exact he
            rw [hxunch]
            exact ⟨a, ha, hcab⟩
          · rcases hK x d y hxy hcolx with hxq | hok
            · rcases List.mem_cons.mp hxq with h1 | h2
              · exact absurd h1 hxp
              · exact Or.inl (List.mem_append_left _ h2)
            · rcases hunch1 x with hxpu | he
              · exact Or.inl (List.mem_append_right _ hxpu)
              · right
                intro b hb
                obtain ⟨a, ha, hcab⟩ := hok b ((hmono1 y).1 hb)
                rw [he]
                exact ⟨a, ha, hcab⟩
        refine ⟨hw2.trans hw1, hh2.trans hh1, ?_, fun hs => hsing2 (hsing1 hs),
          fun hk => hk2 (hstep hk)⟩
        intro x
        exact ⟨(hmono2 x).1.trans (hmono1 x).1, (hmono2 x).2.trans (hmono1 x).2.1⟩

theorem propagateFuel_no_exhaustion (ts : TileSet) :
    ∀ (n : Nat) (g : Grid) (queue : List (Nat × Nat)),
      (∀ p ∈ queue, inRange g.width g.height p) →
      totalDomain g + queue.length < n →
      propagateFuel ts n g queue ≠ PropResult.outOfFuel := by
  intro n
  induction n with
  | zero =>
    intro g queue _ hlt
    exact absurd hlt (Nat.not_lt_zero _)
  | succ n ih =>
    intro g queue hin hlt
    cases queue with
    | nil =>
      simp [propagateFuel]
    | cons p rest =>
      simp only [propagateFuel]
      cases hpn : processNeighbors ts ((g.cells p).domain) (g.neighbors_of p) g with
      | error e =>
        simp
      | ok gp =>
        obtain ⟨g1, pushed⟩ := gp
        dsimp only
        have hp_in : inRange g.width g.height p := hin p (List.mem_cons_self _ _)
        obtain ⟨hw1, hh1, _, _, _, hpush1⟩ :=
          processNeighbors_facts ts _ _ g g1 pushed hpn
        have hns_in : ∀ dq ∈ g.neighbors_of p, inRange g.width g.height dq.2 := by
          intro dq hdq
          rw [neighbors_of_def] at hdq
          exact neighborsOf_inRange hp_in hdq
        have hmeas := processNeighbors_measure ts _ _ g g1 pushed hpn hns_in
        refine ih g1 (rest ++ pushed) ?_ ?_
        · intro x hx
          rw [hw1, hh1]
          rcases List.mem_append.mp hx with hxr | hxp
          · exact hin x (List.mem_cons_of_mem _ hxr)
          · obtain ⟨dd, hdd⟩ := hpush1 x hxp
            rw [neighbors_of_def] at hdd
            exact neighborsOf_inRange hp_in hdd
        · simp only [List.length_append, List.length_cons] at hlt ⊢
          omega

/-! Selection and counting. -/

theorem foldl_min_mem {κ : Type} [LinearOrder κ] :
    ∀ (l : List κ) (x : κ), l.foldl min x = x ∨ l.foldl min x ∈ l := by
  intro l
  induction l with
  | nil => intro x; exact Or.inl rfl
  | cons a tl ih =>
    intro x
    rw [List.foldl_cons]
    rcases ih (min x a) with h1 | h2
    · rw [h1]
      rcases min_choice x a with hx | ha
      · exact Or.inl hx
      · exact Or.inr (by rw [ha]; exact List.mem_cons_self _ _)
    · exact Or.inr (List.mem_cons_of_mem _ h2)

theorem selectMin_mem {κ : Type} [LinearOrder κ] (key : Nat × Nat → κ) (r : Nat)
    (u : Nat × Nat) (us : List (Nat × Nat)) : selectMin key r u us ∈ u :: us := by
  simp only [selectMin]
  set m := (us.map key).foldl min (key u) with hm
  set ties := (u :: us).filter fun p => decide (key p = m) with hties
  have htne : ties ≠ [] := by
    rcases foldl_min_mem (us.map key) (key u) with h1 | h2
    · rw [← hm] at h1
      refine List.ne_nil_of_mem (a := u) ?_
      rw [hties]
      refine List.mem_filter.mpr ⟨List.mem_cons_self _ _, ?_⟩
      rw [h1]
      simp
    · rw [← hm] at h2
      obtain ⟨p, hp, hkp⟩ := List.mem_map.mp h2
      refine List.ne_nil_of_mem (a := p) ?_
      rw [hties]
      refine List.mem_filter.mpr ⟨List.mem_cons_of_mem _ hp, ?_⟩
      rw [hkp]
      simp
  have hlen : 0 < ties.length := List.length_pos.mpr htne
  have hidx : r % ties.length < ties.length := Nat.mod_lt _ hlen
  have hget : ties.getD (r % ties.length) (0, 0) ∈ ties := by
    rw [List.getD_eq_getElem _ _ hidx]
    exact List.getElem_mem _
  exact List.mem_of_mem_filter (hties ▸ hget)

theorem countP_pred_lt {α : Type} (flag newflag : α → Bool) (q : α)
    (hsame : ∀ x, x ≠ q → newflag x = flag x)
    (hflag : flag q = true) (hnew : newflag q = false) :
    ∀ l : List α, l.Nodup → q ∈ l → l.countP newflag < l.countP flag := by
  intro l
  induction l with
  | nil => intro _ hql; cases hql
  | cons a tl ih =>
    intro hnd hql
    rw [List.nodup_cons] at hnd
    obtain ⟨ha, hndtl⟩ := hnd
    rw [List.countP_cons, List.countP_cons]
    rcases List.mem_cons.mp hql with heq | htl
    · subst heq
      have htl_eq : tl.countP newflag = tl.countP flag := by
        apply List.countP_congr
        intro x hx
        rw [hsame x fun hc => ha (hc ▸ hx)]
      rw [htl_eq, hflag, hnew]
      simp
    · have haq : a ≠ q := fun hc => ha (hc ▸ htl)
      have hstep := ih hndtl htl
      rw [hsame a haq]
      omega

/-! One iteration of the attempt loop: case analysis. -/

theorem collapseAndPropagate_cases {κ : Type} [LinearOrder κ] (ts : TileSet)
    (ek : Finset Nat → κ) (g : Grid) (rng : Nat) (u : Nat × Nat) (us : List (Nat × Nat))
    (hfil : g.positions.filter (fun p => !(g.cells p).collapsed) = u :: us) :
    collapseAndPropagate ts ek g rng u us = StepOut.done AttemptResult.contradicted ∨
    (∃ g2 r2, collapseAndPropagate ts ek g rng u us = StepOut.next g2 r2 ∧
      g2.width = g.width ∧ g2.height = g.height ∧
      (SingletonInv g → SingletonInv g2) ∧
      (KInv ts g.width g.height g [] → KInv ts g.width g.height g2 []) ∧
      uncollapsedCount g2 < uncollapsedCount g) := by
  have hsel_mem : selectMin (fun p => ek ((g.cells p).domain)) (rngNext rng) u us ∈ u :: us :=
    selectMin_mem _ _ _ _
  simp only [collapseAndPropagate]
  set sel := selectMin (fun p => ek ((g.cells p).domain)) (rngNext rng) u us with hseldef
  set t := chooseTile ts (g.cells sel) (rngNext (rngNext rng)) with htdef
  have hself : sel ∈ g.positions.filter (fun p => !(g.cells p).collapsed) := by
    rw [hfil]
    exact hsel_mem
  obtain ⟨hsel_pos, hsel_flag⟩ := List.mem_filter.mp hself
  have hsel_in : inRange g.width g.height sel := mem_positionsList.mp hsel_pos
  have hsel_uncol : (g.cells sel).collapsed = false := by
    simpa using hsel_flag
  cases hct : (g.cells sel).collapse_to t with
  | none =>
    dsimp only
    exact Or.inl rfl
  | some c =>
    dsimp only
    obtain ⟨htmem, hcdom, hccol⟩ := collapse_to_some _ _ _ hct
    cases hprop : propagate ts (g.setCell sel c) [sel] with
    | contradictionFound =>
      exact Or.inl rfl
    | outOfFuel =>
      exfalso
      refine propagateFuel_no_exhaustion ts (totalDomain (g.setCell sel c) + 1 + 1)
        (g.setCell sel c) [sel] ?_ ?_ hprop
      · intro p hp
        rw [List.mem_singleton] at hp
        subst hp
        exact hsel_in
      · simp
    | ok g2 =>
      right
      refine ⟨g2, rngNext (rngNext rng), rfl, ?_⟩
      obtain ⟨hw, hh, hmono, hsing, hkprop⟩ :=
        propagateFuel_ok_facts ts _ (g.setCell sel c) [sel] g2 hprop
      have hw' : g2.width = g.width := hw
      have hh' : g2.height = g.height := hh
      have hsing1 : SingletonInv g → SingletonInv (g.setCell sel c) := by
        intro hs x hcol
        by_cases hxsel : x = sel
        · subst hxsel
          rw [setCell_cells_same]
          exact ⟨t, hcdom⟩
        · rw [setCell_cells_ne g sel c x hxsel] at hcol ⊢
          exact hs x hcol
      have hk1 : KInv ts g.width g.height g [] →
          KInv ts g.width g.height (g.setCell sel c) [sel] := by
        intro hk x d y hxy hcolx1
        by_cases hxsel : x = sel
        · subst hxsel
          exact Or.inl (List.mem_singleton.mpr rfl)
        · have hcells_x : (g.setCell sel c).cells x = g.cells x :=
            setCell_cells_ne g sel c x hxsel
          have hcolx : (g.cells x).collapsed = true := by
            rw [← hcells_x]
            exact hcolx1
          rcases hk x d y hxy hcolx with hmem | hok
          · cases hmem
          · right
            intro b hb
            have hby : b ∈ (g.cells y).domain := by
              by_cases hysel : y = sel
              · subst hysel
                rw [setCell_cells_same] at hb
                rw [hcdom] at hb
                rw [Finset.mem_singleton.mp hb]
                exact htmem
              · rw [setCell_cells_ne g sel c y hysel] at hb
                exact hb
            obtain ⟨a, ha, hab⟩ := hok b hby
            rw [hcells_x]
            exact ⟨a, ha, hab⟩
      refine ⟨hw', hh', fun hs => hsing (hsing1 hs), fun hk => ?_, ?_⟩
      · have hres := hkprop (hk1 hk)
        exact hres
      · unfold uncollapsedCount Grid.positions
        rw [hw', hh']
        refine countP_pred_lt _ _ sel ?_ ?_ ?_ _ (nodup_positionsList _ _) hsel_pos
        · intro x hx
          show (!(g2.cells x).collapsed) = (!(g.cells x).collapsed)
          rw [(hmono x).2, setCell_cells_ne g sel c x hx]
        · show (!(g.cells sel).collapsed) = true
          rw [hsel_uncol]
          rfl
        · show (!(g2.cells sel).collapsed) = false
          rw [(hmono sel).2, setCell_cells_same, hccol]
          rfl

theorem attemptStep_cases {κ : Type} [LinearOrder κ] (ts : TileSet) (ek : Finset Nat → κ)
    (g : Grid) (rng : Nat) :
    attemptStep ts ek g rng = StepOut.done AttemptResult.contradicted ∨
    (attemptStep ts ek g rng = StepOut.done (AttemptResult.solved g) ∧
      g.fully_collapsed = true ∧ g.any_contradiction = false) ∨
    (∃ g2 r2, attemptStep ts ek g rng = StepOut.next g2 r2 ∧
      g2.width = g.width ∧ g2.height = g.height ∧
      (SingletonInv g → SingletonInv g2) ∧
      (KInv ts g.width g.height g [] → KInv ts g.width g.height g2 []) ∧
      uncollapsedCount g2 < uncollapsedCount g) := by
  cases hcon : g.any_contradiction with
  | true =>
    left
    simp [attemptStep, hcon]
  | false =>
    cases hful : g.fully_collapsed with
    | true =>
      exact Or.inr (Or.inl ⟨by simp [attemptStep, hcon, hful], rfl, rfl⟩)
    | false =>
      cases hfil : g.positions.filter (fun p => !(g.cells p).collapsed) with
      | nil =>
        left
        simp [attemptStep, hcon, hful, hfil]
      | cons u us =>
        have hstep_eq : attemptStep ts ek g rng = collapseAndPropagate ts ek g rng u us := by
          simp [attemptStep, hcon, hful, hfil]
        rcases collapseAndPropagate_cases ts ek g rng u us hfil with hc | ⟨g2, r2, heq, hrest⟩
        · exact Or.inl (hstep_eq.trans hc)
        · exact Or.inr (Or.inr ⟨g2, r2, hstep_eq.trans heq, hrest⟩)

theorem attemptLoop_ne_outOfFuel {κ : Type} [LinearOrder κ] (ts : TileSet)
    (ek : Finset Nat → κ) :
    ∀ (n : Nat) (g : Grid) (rng : Nat), uncollapsedCount g < n →
      attemptLoop ts ek n g rng ≠ AttemptResult.outOfFuel := by
  intro n
  induction n with
  | zero =>
    intro g rng hlt
    exact absurd hlt (Nat.not_lt_zero _)
  | succ n ih =>
    intro g rng hlt
    simp only [attemptLoop]
    rcases attemptStep_cases ts ek g rng with hc | ⟨hs, _, _⟩ | ⟨g2, r2, hn, _, _, _, _, hcount⟩
    · rw [hc]
      simp
    · rw [hs]
      simp
    · rw [hn]
      exact ih g2 r2 (by omega)

theorem attemptLoop_solved_facts {κ : Type} [LinearOrder κ] (ts : TileSet)
    (ek : Finset Nat → κ) :
    ∀ (n : Nat) (g : Grid) (rng : Nat) (g2 : Grid),
      attemptLoop ts ek n g rng = AttemptResult.solved g2 →
      SingletonInv g → KInv ts g.width g.height g [] →
      g2.width = g.width ∧ g2.height = g.height ∧ g2.fully_collapsed = true ∧
      g2.any_contradiction = false ∧ SingletonInv g2 ∧ KInv ts g.width g.height g2 [] := by
  intro n
  induction n with
  | zero =>
    intro g rng g2 h _ _
    simp only [attemptLoop] at h
    exact AttemptResult.noConfusion h
  | succ n ih =>
    intro g rng g2 h hS hK
    simp only [attemptLoop] at h
    rcases attemptStep_cases ts ek g rng with hc | ⟨hs, hful, hcon⟩ |
        ⟨g2x, r2x, hn, hw, hh, hsing, hk, _⟩
    · rw [hc] at h
      dsimp only at h
      exact AttemptResult.noConfusion h
    · rw [hs] at h
      dsimp only at h
      injection h with hg
      subst hg
      exact ⟨rfl, rfl, hful, hcon, hS, hK⟩
    · rw [hn] at h
      dsimp only at h
      have hk2 : KInv ts g2x.width g2x.height g2x [] := by
        rw [hw, hh]
        exact hk hK
      obtain ⟨h1, h2, h3, h4, h5, h6⟩ := ih g2x r2x g2 h (hsing hS) hk2
      refine ⟨h1.trans hw, h2.trans hh, h3, h4, h5, ?_⟩
      rw [← hw, ← hh]
      exact h6

theorem reset_singletonInv (g : Grid) (ts : TileSet) : SingletonInv (g.reset ts) := by
  intro p hcol
  simp [Grid.reset, initialCell] at hcol

theorem reset_kInv (g : Grid) (ts : TileSet) (w h : Nat) : KInv ts w h (g.reset ts) [] := by
  intro p d q hpq hcol
  simp [Grid.reset, initialCell] at hcol

theorem mkGrid_singletonInv (ts : TileSet) (w h : Nat) : SingletonInv (mkGrid ts w h) := by
  intro p hcol
  simp [mkGrid, initialCell] at hcol

theorem mkGrid_kInv (ts : TileSet) (w h w2 h2 : Nat) : KInv ts w2 h2 (mkGrid ts w h) [] := by
  intro p d q hpq hcol
  simp [mkGrid, initialCell] at hcol

theorem runAux_ok_facts {κ : Type} [LinearOrder κ] (ts : TileSet) (ek : Finset Nat → κ)
    (seed w h : Nat) :
    ∀ (n k : Nat) (g g2 : Grid),
      g.width = w → g.height = h → SingletonInv g → KInv ts w h g [] →
      runAux ts ek seed g k n = Except.ok g2 →
      g2.width = w ∧ g2.height = h ∧ g2.fully_collapsed = true ∧
      g2.any_contradiction = false ∧ SingletonInv g2 ∧ KInv ts w h g2 [] := by
  intro n
  induction n with
  | zero =>
    intro k g g2 _ _ _ _ hrun
    simp only [runAux] at hrun
    exact Except.noConfusion hrun
  | succ n ih =>
    intro k g g2 hgw hgh hS hK hrun
    simp only [runAux] at hrun
    cases hres : attemptLoop ts ek (g.width * g.height + 1) g (attemptRng seed k) with
    | solved gs =>
      rw [hres] at hrun
      dsimp only at hrun
      injection hrun with hgs
      rw [← hgs]
      have hK' : KInv ts g.width g.height g [] := by
        rw [hgw, hgh]
        exact hK
      obtain ⟨h1, h2, h3, h4, h5, h6⟩ := attemptLoop_solved_facts ts ek _ g _ gs hres hS hK'
      refine ⟨h1.trans hgw, h2.trans hgh, h3, h4, h5, ?_⟩
      rw [← hgw, ← hgh]
      exact h6
    | contradicted =>
      rw [hres] at hrun
      dsimp only at hrun
      exact ih (k + 1) (g.reset ts) g2 hgw hgh (reset_singletonInv g ts) (reset_kInv g ts w h) hrun
    | outOfFuel =>
      rw [hres] at hrun
      dsimp only at hrun
      exact ih (k + 1) (g.reset ts) g2 hgw hgh (reset_singletonInv g ts) (reset_kInv g ts w h) hrun

theorem length_positionsList (w h : Nat) : (positionsList w h).length = h * w := by
  unfold positionsList
  rw [List.length_flatMap]
  have hmap : (List.range h).map (List.length ∘ fun r => (List.range w).map fun c => (r, c)) =
      (List.range h).map fun _ => w := by
    apply List.map_congr_left
    intro r _
    show ((List.range w).map fun c => (r, c)).length = w
    rw [List.length_map, List.length_range]
  rw [hmap, List.map_const', List.sum_replicate, List.length_range, smul_eq_mul]

theorem attemptAt_ne_outOfFuel {κ : Type} [LinearOrder κ] (ts : TileSet)
    (ek : Finset Nat → κ) (w h seed k : Nat) :
    attemptAt ts ek w h seed k ≠ AttemptResult.outOfFuel := by
  unfold attemptAt
  apply attemptLoop_ne_outOfFuel
  have hle : uncollapsedCount (mkGrid ts w h) ≤ (positionsList w h).length := by
    unfold uncollapsedCount Grid.positions
    exact List.countP_le_length _
  rw [length_positionsList, Nat.mul_comm] at hle
  omega

theorem runAux_error_iff {κ : Type} [LinearOrder κ] (ts : TileSet) (ek : Finset Nat → κ)
    (w h seed : Nat) :
    ∀ (n k : Nat),
      runAux ts ek seed (mkGrid ts w h) k n = Except.error () ↔
        ∀ j, j < n → attemptAt ts ek w h seed (k + j) = AttemptResult.contradicted := by
  intro n
  induction n with
  | zero =>
    intro k
    exact ⟨fun _ j hj => absurd hj (Nat.not_lt_zero _), fun _ => rfl⟩
  | succ n ih =>
    intro k
    have hreset : (mkGrid ts w h).reset ts = mkGrid ts w h := rfl
    cases hres : attemptAt ts ek w h seed k with
    | solved gs =>
      have hresL : attemptLoop ts ek ((mkGrid ts w h).width * (mkGrid ts w h).height + 1)
          (mkGrid ts w h) (attemptRng seed k) = AttemptResult.solved gs := hres
      simp only [runAux]
      rw [hresL]
      constructor
      · intro hc
        exact Except.noConfusion hc
      · intro hall
        have h0 := hall 0 (Nat.succ_pos n)
        rw [Nat.add_zero, hres] at h0
        exact AttemptResult.noConfusion h0
    | contradicted =>
      have hresL : attemptLoop ts ek ((mkGrid ts w h).width * (mkGrid ts w h).height + 1)
          (mkGrid ts w h) (attemptRng seed k) = AttemptResult.contradicted := hres
      simp only [runAux]
      rw [hresL, hreset]
      dsimp only
      rw [ih (k + 1)]
      constructor
      · intro hall j hj
        cases j with
        | zero =>
          rw [Nat.add_zero]
          exact hres
        | succ j2 =>
          have hj2 := hall j2 (by omega)
          rw [show k + (j2 + 1) = k + 1 + j2 from by omega]
          exact hj2
      · intro hall j hj
        have hj1 := hall (j + 1) (by omega)
        rw [show k + 1 + j = k + (j + 1) from by omega]
        exact hj1
    | outOfFuel =>
      exact absurd hres (attemptAt_ne_outOfFuel ts ek w h seed k)

/-! Claim theorems. -/

/-- C1: whenever `run` returns `Solved` (the `Except.ok` case), every in-range
cell of the returned grid is collapsed with a single-tile domain, and for every
pair of adjacent cells the two collapsed tiles are mutually compatible per the
TileSet's compatibility table — zero constraint violations (both directions of
every adjacency are instances of the quantifier). -/
theorem claim1_run_solved_sound {κ : Type} [LinearOrder κ] (ts : TileSet)
    (ek : Finset Nat → κ) (w h seed attempts : Nat) (g : Grid)
    (hrun : run ts ek w h seed attempts = Except.ok g) :
    g.width = w ∧ g.height = h ∧
    (∀ p, inRange w h p → (g.cells p).collapsed = true ∧ ∃ t, (g.cells p).domain = {t}) ∧
    (∀ p d q a b, inRange w h p → (d, q) ∈ neighborsOf w h p →
      (g.cells p).domain = {a} → (g.cells q).domain = {b} → ts.compatible a d b) := by
  obtain ⟨hw, hh, hful, hcon, hsing, hK⟩ :=
    runAux_ok_facts ts ek seed w h attempts 0 (mkGrid ts w h) g rfl rfl
      (mkGrid_singletonInv ts w h) (mkGrid_kInv ts w h w h) hrun
  have hposmem : ∀ p, inRange w h p → p ∈ g.positions := by
    intro p hp
    unfold Grid.positions
    rw [hw, hh]
    exact mem_positionsList.mpr hp
  have hcols : ∀ p ∈ g.positions, (g.cells p).collapsed = true := by
    unfold Grid.fully_collapsed at hful
    exact fun p hp => List.all_eq_true.mp hful p hp
  refine ⟨hw, hh, ?_, ?_⟩
  · intro p hp
    have hc := hcols p (hposmem p hp)
    exact ⟨hc, hsing p hc⟩
  · intro p d q a b hp hpq hpa hqb
    have hc := hcols p (hposmem p hp)
    rcases hK p d q hpq hc with hmem | hok
    · cases hmem
    · obtain ⟨a2, ha2, hcompat⟩ := hok b (by rw [hqb]; exact Finset.mem_singleton_self b)
      rw [hpa, Finset.mem_singleton] at ha2
      rw [← ha2]
      exact hcompat

theorem claim1_witness :
    (solvedGrid1.cells (0, 0)).collapsed = true ∧
      ∃ t, (solvedGrid1.cells (0, 0)).domain = {t} :=
  (claim1_run_solved_sound tsSingle ekCard 1 1 0 1 solvedGrid1 (by rfl)).2.2.1 (0, 0) (by decide)

/-- C2: the solver is a deterministic function of the TileSet, the entropy
heuristic, the grid dimensions, the seed and the attempt budget — two `run`
invocations with identical inputs produce identical results (grid or
failure). -/
theorem claim2_run_deterministic {κ : Type} [LinearOrder κ]
    (ts1 ts2 : TileSet) (ek1 ek2 : Finset Nat → κ) (w1 w2 h1 h2 s1 s2 n1 n2 : Nat)
    (hts : ts1 = ts2) (hek : ek1 = ek2) (hw : w1 = w2) (hh : h1 = h2)
    (hs : s1 = s2) (hn : n1 = n2) :
    run ts1 ek1 w1 h1 s1 n1 = run ts2 ek2 w2 h2 s2 n2 := by
  subst hts
  subst hek
  subst hw
  subst hh
  subst hs
  subst hn
  rfl

theorem claim2_witness :
    run tsSingle ekCard 1 1 0 1 = run tsSingle ekCard 1 1 0 1 :=
  claim2_run_deterministic tsSingle tsSingle ekCard ekCard 1 1 1 1 0 0 1 1
    rfl rfl rfl rfl rfl rfl

/-- C3: `restrict(s)` replaces the domain with the intersection of the current
domain and `s`, returns `true` iff that intersection differs from the prior
domain, and signals `ContradictionError` iff the intersection is empty. -/
theorem claim3_restrict_spec (c : Cell) (s : Finset Nat) :
    (c.restrict s = Except.error () ↔ c.domain ∩ s = ∅) ∧
    (∀ c2 chg, c.restrict s = Except.ok (c2, chg) →
      c2.domain = c.domain ∩ s ∧ (chg = true ↔ c2.domain ≠ c.domain)) := by
  refine ⟨restrict_error_iff c s, ?_⟩
  intro c2 chg hok
  obtain ⟨h1, _, _, h4⟩ := restrict_ok_facts c s c2 chg hok
  exact ⟨h1, h4⟩

theorem claim3_witness :
    cellRes.domain = cellA.domain ∩ ({2, 3} : Finset Nat) ∧
      (true = true ↔ cellRes.domain ≠ cellA.domain) :=
  (claim3_restrict_spec cellA {2, 3}).2 cellRes true rfl

theorem solverOp_mono {g g2 : Grid} (hstep : SolverOp g g2) (p : Nat × Nat) :
    (g2.cells p).domain ⊆ (g.cells p).domain := by
  cases hstep with
  | collapse q t c hct =>
    obtain ⟨htmem, hcdom, _⟩ := collapse_to_some _ _ _ hct
    by_cases hpq : p = q
    · subst hpq
      rw [setCell_cells_same, hcdom]
      intro x hx
      rw [Finset.mem_singleton.mp hx]
      exact htmem
    · rw [setCell_cells_ne _ _ _ _ hpq]
  | restriction q s c chg hre =>
    obtain ⟨hcdom, _, _, _⟩ := restrict_ok_facts _ _ _ _ hre
    by_cases hpq : p = q
    · subst hpq
      rw [setCell_cells_same, hcdom]
      exact Finset.inter_subset_left
    · rw [setCell_cells_ne _ _ _ _ hpq]

/-- C4: across any sequence of solver operations (collapse or restrict), every
cell's domain never grows — each later observation is a subset of the earlier
one — and being a subset of the TileSet's full catalog is preserved. -/
theorem claim4_domains_monotone (ts : TileSet) (g g2 : Grid)
    (hsteps : Relation.ReflTransGen SolverOp g g2) (p : Nat × Nat) :
    (g2.cells p).domain ⊆ (g.cells p).domain ∧
    ((g.cells p).domain ⊆ catalogSet ts → (g2.cells p).domain ⊆ catalogSet ts) := by
  induction hsteps with
  | refl => exact ⟨Finset.Subset.refl _, fun hc => hc⟩
  | tail hab hbc ih =>
    have hone := solverOp_mono hbc p
    exact ⟨hone.trans ih.1, fun hc => hone.trans (ih.1.trans hc)⟩

theorem claim4_witness :
    (((mkGrid tsSingle 1 1).setCell (0, 0) cellKeep).cells (0, 0)).domain ⊆
      ((mkGrid tsSingle 1 1).cells (0, 0)).domain ∧
    (((mkGrid tsSingle 1 1).cells (0, 0)).domain ⊆ catalogSet tsSingle →
      (((mkGrid tsSingle 1 1).setCell (0, 0) cellKeep).cells (0, 0)).domain ⊆
        catalogSet tsSingle) :=
  claim4_domains_monotone tsSingle (mkGrid tsSingle 1 1)
    ((mkGrid tsSingle 1 1).setCell (0, 0) cellKeep)
    (Relation.ReflTransGen.single
      (SolverOp.restriction (mkGrid tsSingle 1 1) (0, 0) {0} cellKeep false (by rfl)))
    (0, 0)

/-- C5: `run` fails with `UnsatisfiableError` (the `Except.error` case) if and
only if every attempt in the configured budget ends in `Contradicted`; a
contradiction inside an attempt is never surfaced while unspent attempts
remain — the attempt is aborted and the next one starts on a reset grid. -/
theorem claim5_unsatisfiable_iff {κ : Type} [LinearOrder κ] (ts : TileSet)
    (ek : Finset Nat → κ) (w h seed attempts : Nat) :
    run ts ek w h seed attempts = Except.error () ↔
      ∀ k, k < attempts → attemptAt ts ek w h seed k = AttemptResult.contradicted := by
  have hiff := runAux_error_iff ts ek w h seed attempts 0
  constructor
  · intro herr k hk
    have := hiff.mp herr k hk
    rwa [Nat.zero_add] at this
  · intro hall
    refine hiff.mpr ?_
    intro j hj
    rw [Nat.zero_add]
    exact hall j hj

theorem claim5_witness :
    run tsIncompat ekCard 2 1 0 2 = Except.error () := by
  refine (claim5_unsatisfiable_iff tsIncompat ekCard 2 1 0 2).mpr ?_
  intro k hk
  match k, hk with
  | 0, _ => rfl
  | 1, _ => rfl

/-- C6: the breadth-first queue-draining propagation loop terminates for every
TileSet, every grid state, and every queue of cell positions — with the fuel
bound `totalDomain + queue length + 1` it either drains the queue or aborts on
a contradiction, never exhausting its fuel. -/
theorem claim6_propagation_terminates (ts : TileSet) (g : Grid)
    (queue : List (Nat × Nat)) (hq : ∀ p ∈ queue, inRange g.width g.height p) :
    propagate ts g queue ≠ PropResult.outOfFuel :=
  propagateFuel_no_exhaustion ts (totalDomain g + queue.length + 1) g queue hq
    (by omega)

theorem claim6_witness :
    propagate tsSingle (mkGrid tsSingle 2 2) [(0, 0)] ≠ PropResult.outOfFuel :=
  claim6_propagation_terminates tsSingle (mkGrid tsSingle 2 2) [(0, 0)] (by decide)

/-- C7 counterexample: on a 0×0 grid (a grid with no cells) `fully_collapsed`
reports `true`, not `false`, immediately after `reset` — the claim fails for
grids without at least one cell. -/
theorem claim7_counterexample :
    ¬ (((mkGrid tsSingle 0 0).reset tsSingle).fully_collapsed = false) := by
  decide

/-- C7 (amended): after `grid.reset()` on any grid with at least one cell
(positive dimensions), `fully_collapsed` reports `false`, every cell is
uncollapsed, and every cell's domain equals the TileSet's full catalog. -/
theorem claim7_reset_restores (g : Grid) (ts : TileSet)
    (hw : 0 < g.width) (hh : 0 < g.height) :
    (g.reset ts).fully_collapsed = false ∧
    ∀ p, ((g.reset ts).cells p).collapsed = false ∧
      ((g.reset ts).cells p).domain = catalogSet ts := by
  constructor
  · unfold Grid.fully_collapsed
    refine List.all_eq_false.mpr ⟨(0, 0), ?_, ?_⟩
    · exact mem_positionsList.mpr ⟨hh, hw⟩
    · simp [Grid.reset, initialCell]
  · intro p
    exact ⟨rfl, rfl⟩

theorem claim7_witness :
    ((mkGrid tsSingle 1 1).reset tsSingle).fully_collapsed = false ∧
      (((mkGrid tsSingle 1 1).reset tsSingle).cells (0, 0)).collapsed = false :=
  ⟨(claim7_reset_restores (mkGrid tsSingle 1 1) tsSingle (by decide) (by decide)).1,
    ((claim7_reset_restores (mkGrid tsSingle 1 1) tsSingle (by decide) (by decide)).2 (0, 0)).1⟩

/-- C8: on every N×M grid with both dimensions at least 2 (4-connectivity, no
wraparound), neighbor lookup at each of the four corner cells yields exactly 2
neighbor positions, all of which lie inside the grid. -/
theorem claim8_corner_neighbors (w h : Nat) (hw : 2 ≤ w) (hh : 2 ≤ h) :
    ∀ p ∈ [((0 : Nat), (0 : Nat)), ((0 : Nat), w - 1), (h - 1, (0 : Nat)), (h - 1, w - 1)],
      (neighborsOf w h p).length = 2 ∧ ∀ dq ∈ neighborsOf w h p, inRange w h dq.2 := by
  intro p hp
  simp only [List.mem_cons, List.not_mem_nil, or_false] at hp
  rcases hp with h1 | h1 | h1 | h1 <;> subst h1
  · have e1 : neighborsOf w h (0, 0) = [(Direction.down, (1, 0)), (Direction.right, (0, 1))] := by
      unfold neighborsOf
      have c1 : ¬ (0 < (0 : Nat)) := by omega
      have c2 : (0 : Nat) + 1 < h := by omega
      have c3 : (0 : Nat) + 1 < w := by omega
      simp [c1, c2, c3]
    rw [e1]
    refine ⟨rfl, ?_⟩
    intro dq hdq
    rcases List.mem_cons.mp hdq with he | he
    · subst he
      dsimp only [inRange]
      omega
    · rw [List.mem_singleton.mp he]
      dsimp only [inRange]
      omega
  · have e1 : neighborsOf w h (0, w - 1) =
        [(Direction.down, (1, w - 1)), (Direction.left, (0, w - 1 - 1))] := by
      unfold neighborsOf
      have c1 : ¬ (0 < (0 : Nat)) := by omega
      have c2 : (0 : Nat) + 1 < h := by omega
      have c3 : 0 < w - 1 := by omega
      have c4 : ¬ (w - 1 + 1 < w) := by omega
      simp [c1, c2, c3, c4]
    rw [e1]
    refine ⟨rfl, ?_⟩
    intro dq hdq
    rcases List.mem_cons.mp hdq with he | he
    · subst he
      dsimp only [inRange]
      omega
    · rw [List.mem_singleton.mp he]
      dsimp only [inRange]
      omega
  · have e1 : neighborsOf w h (h - 1, 0) =
        [(Direction.up, (h - 1 - 1, 0)), (Direction.right, (h - 1, 1))] := by
      unfold neighborsOf
      have c1 : 0 < h - 1 := by omega
      have c2 : ¬ (h - 1 + 1 < h) := by omega
      have c3 : ¬ (0 < (0 : Nat)) := by omega
      have c4 : (0 : Nat) + 1 < w := by omega
      simp [c1, c2, c3, c4]
    rw [e1]
    refine ⟨rfl, ?_⟩
    intro dq hdq
    rcases List.mem_cons.mp hdq with he | he
    · subst he
      dsimp only [inRange]
      omega
    · rw [List.mem_singleton.mp he]
      dsimp only [inRange]
      omega
  · have e1 : neighborsOf w h (h - 1, w - 1) =
        [(Direction.up, (h - 1 - 1, w - 1)), (Direction.left, (h - 1, w - 1 - 1))] := by
      unfold neighborsOf
      have c1 : 0 < h - 1 := by omega
      have c2 : ¬ (h - 1 + 1 < h) := by omega
      have c3 : 0 < w - 1 := by omega
      have c4 : ¬ (w - 1 + 1 < w) := by omega
      simp [c1, c2, c3, c4]
    rw [e1]
    refine ⟨rfl, ?_⟩
    intro dq hdq
    rcases List.mem_cons.mp hdq with he | he
    · subst he
      dsimp only [inRange]
      omega
    · rw [List.mem_singleton.mp he]
      dsimp only [inRange]
      omega

theorem claim8_witness :
    (neighborsOf 2 2 ((0 : Nat), (0 : Nat))).length = 2 ∧
      ∀ dq ∈ neighborsOf 2 2 ((0 : Nat), (0 : Nat)), inRange 2 2 dq.2 :=
  claim8_corner_neighbors 2 2 (by decide) (by decide) (0, 0) (by decide)

/-- C9: `main` from `src/main.cpp` returns exit status 0 unconditionally — for
every Application configuration, every argument vector, and every outcome of
`Application::run` (success or solver failure), the process reports success. -/
theorem claim9_main_returns_zero {κ : Type} [LinearOrder κ] (app : Application κ)
    (argc : Nat) (argv : List String) :
    cppMain app argc argv = 0 := by
  unfold cppMain
  cases applicationRun app <;> rfl

/-- C10: the behavior of `main` from `src/main.cpp` is independent of its
command-line arguments — for any two argument vectors it performs the same
computation, because `argc` and `argv` are never read and the Application is
default-constructed with no external parameters. -/
theorem claim10_main_ignores_args {κ : Type} [LinearOrder κ] (app : Application κ)
    (argc1 argc2 : Nat) (argv1 argv2 : List String) :
    cppMain app argc1 argv1 = cppMain app argc2 argv2 := rfl
